import Mathlib

/-!
Shallow embedding of the FixReverter crash-triage modules
(`experiment/measurer/fixreverter_run_crashes.py` and
`experiment/measurer/fixreverter_run_coverage.py`).

Strings are modelled as Lean `String`s, processed as `List Char`; the helper
functions below model the Python built-ins the source uses
(`str.split`, `in` for substring tests, `int`, `str.startswith`,
`os.path.basename`, `'+'.join`, `sorted`).
Injection-point IDs are modelled as `ℤ` (the result of Python `int`).
A Python `set` of IDs is modelled as a sorted duplicate-free `List ℤ`
(one canonical presentation of the set; the source never relies on a
particular set iteration order).
External effects (running the target binary, the clusterfuzz stack parser)
are parameters: the per-candidate trial-plus-classification is a function
from the candidate subset to `Bool`, and the stack parser a function from
(fuzz-target name, output text) to a crash type and crash state.
-/

/-- Model of Python `str.split(sep)` for a one-character separator:
splits on every occurrence, keeping empty pieces (`''.split` gives `['']`). -/
def splitOnChar (sep : Char) (l : List Char) : List (List Char) :=
  l.foldr
    (fun c acc =>
      if c = sep then [] :: acc
      else
        match acc with
        | [] => [[c]]
        | t :: ts => (c :: t) :: ts)
    [[]]

/-- Model of `line.split(' ')[-1]`: the last single-space-delimited token. -/
def lastToken (line : List Char) : List Char :=
  (splitOnChar ' ' line).getLastD []

/-- The whitespace characters stripped by Python `int()` (ASCII fragment). -/
def isPySpace (c : Char) : Bool :=
  c = ' ' || c = '\t' || c = '\n' || c = '\r' || c = '\x0b' || c = '\x0c'

/-- Model of Python `str.strip()` (ASCII whitespace). -/
def pyStrip (l : List Char) : List Char :=
  ((l.dropWhile isPySpace).reverse.dropWhile isPySpace).reverse

/-- Numeric value of a decimal digit character. -/
def digitVal (c : Char) : ℕ := c.toNat - '0'.toNat

/-- Value of a list of decimal digit characters. -/
def digitsVal (l : List Char) : ℕ :=
  l.foldl (fun a c => 10 * a + digitVal c) 0

/-- Model of Python `int(s)` on ASCII text: optional surrounding whitespace,
an optional sign, then one or more decimal digits; `none` models the
`ValueError` raised on any other shape. -/
def pyInt (s : List Char) : Option ℤ :=
  match pyStrip s with
  | [] => none
  | '+' :: ds =>
    if !ds.isEmpty && ds.all Char.isDigit then some (digitsVal ds) else none
  | '-' :: ds =>
    if !ds.isEmpty && ds.all Char.isDigit then some (-(digitsVal ds : ℤ)) else none
  | ds =>
    if ds.all Char.isDigit then some (digitsVal ds) else none

/-- Model of Python `pat in line` (substring containment). -/
def hasSubstr (pat : List Char) : List Char → Bool
  | [] => pat.isEmpty
  | c :: rest => pat.isPrefixOf (c :: rest) || hasSubstr pat rest

/-- Model of `os.path.basename` as used on the paths in this code:
the part after the last `/`. -/
def basename (path : String) : String :=
  String.mk ((splitOnChar '/' path.toList).getLastD [])

/-- The substring marking a "triggered" log event. -/
def trigPat : List Char := "triggered bug index".toList

/-- The substring marking a "reached" log event. -/
def reachPat : List Char := "reached bug index".toList

/-- Model of `s.add(i)` on a Python `set` held as a sorted duplicate-free
list: no-op when present, ordered insertion otherwise. -/
def setAdd (s : List ℤ) (i : ℤ) : List ℤ :=
  if i ∈ s then s else s.orderedInsert (· ≤ ·) i

namespace fixreverter_run_crashes

/-- Model of the captured result of one execution of the target binary:
the combined output text (`result.output`). -/
structure ExecResult where
  output : String

/-- Model of the crash result produced by the external clusterfuzz stack
parser: its `crash_type` and `crash_state` fields, with `""` standing for
an empty or absent value. -/
structure CrashResult where
  crash_type : String
  crash_state : String

/-- Model of `isCrash` from `fixreverter_run_crashes.py`: empty output is no crash;
then the external stack parser (a parameter, applied to the fuzz-target
basename and the output) decides; empty crash state is no crash; crash
types `Timeout` and `Out-of-memory` are excluded; anything else is a crash. -/
def isCrash (stackClassifier : String → String → CrashResult)
    (result : ExecResult) (app_binary : String) : Bool :=
  if result.output = "" then false
  else
    let crash_result := stackClassifier (basename app_binary) result.output
    if crash_result.crash_state = "" then false
    else if crash_result.crash_type = "Timeout"
        || crash_result.crash_type = "Out-of-memory" then false
    else true

/-- The line loop of `parseFixReverterLog` (crashes variant): a line
containing `triggered bug index` contributes `int(line.split(' ')[-1])`
to the `triggers` set; a non-integer token raises `ValueError`, modelled
by `none`, aborting the whole parse as in the source. -/
def parseLoop : List (List Char) → List ℤ → Option (List ℤ)
  | [], triggers => some triggers
  | line :: rest, triggers =>
    if hasSubstr trigPat line then
      match pyInt (lastToken line) with
      | none => none
      | some injectionID => parseLoop rest (setAdd triggers injectionID)
    else parseLoop rest triggers

/-- Model of `parseFixReverterLog` from `fixreverter_run_crashes.py`: split the
output on newlines and collect the triggered injection IDs. -/
def parseFixReverterLog (output : String) : Option (List ℤ) :=
  parseLoop (splitOnChar '\n' output.toList) []

/-- Minimizer state: the `crashes` list accumulated by `process_crash`,
paired with the instrumented trace of candidate subsets actually passed
to the trial executor (in execution order). -/
abbrev MState := List (List ℤ) × List (List ℤ)

/-- One iteration of the inner loop of `process_crash` on candidate
`currset`: skip it when it is a superset of an already recorded crash
set (`set(currset).issuperset(crash)`), otherwise execute it (the trial
plus `isCrash` classification is the parameter `is_crash`, a function of
the candidate subset) and record it when it crashes. -/
def crashStep (is_crash : Finset ℤ → Bool) (st : MState) (currset : List ℤ) :
    MState :=
  if st.1.any (fun crash => crash.all (fun i => decide (i ∈ currset))) then st
  else if is_crash currset.toFinset then (st.1 ++ [currset], st.2 ++ [currset])
  else (st.1, st.2 ++ [currset])

/-- Model of `itertools.combinations(l, n)`: all length-`n` subsequences of `l`,
in the source order. -/
def combinations {α : Type} : ℕ → List α → List (List α)
  | 0, _ => [[]]
  | _ + 1, [] => []
  | n + 1, x :: xs => ((combinations n xs).map (x :: ·)) ++ combinations (n + 1) xs

/-- The inner `for currset in itertools.combinations(triggers, n)` loop. -/
def runSize (is_crash : Finset ℤ → Bool) (triggers : List ℤ) (st : MState)
    (n : ℕ) : MState :=
  (combinations n triggers).foldl (crashStep is_crash) st

/-- The `for n in range(1, len(triggers)+1)` loop of `process_crash`,
starting from an empty `crashes` list. -/
def minimizeCrashes (is_crash : Finset ℤ → Bool) (triggers : List ℤ) : MState :=
  (List.range' 1 triggers.length).foldl (runSize is_crash triggers) ([], [])

/-- Model of `process_crash` from `fixreverter_run_crashes.py`. The baseline
execution's result is the parameter `baseline`; `stackClassifier` is the
external crash classifier and `is_crash` the deterministic
trial-plus-classification function for candidate subsets. `none` models
the uncaught `ValueError` of a malformed log line. The Python set
`triggers` is iterated through its canonical (sorted) presentation. -/
def process_crash (stackClassifier : String → String → CrashResult)
    (app_binary crash_testcase_path : String) (baseline : ExecResult)
    (is_crash : Finset ℤ → Bool) : Option MState :=
  if "oom-".toList.isPrefixOf (basename crash_testcase_path).toList
      || "timeout-".toList.isPrefixOf (basename crash_testcase_path).toList
    then some ([], [])
  else if !(isCrash stackClassifier baseline app_binary) then some ([], [])
  else
    match parseFixReverterLog baseline.output with
    | none => none
    | some triggers =>
      if triggers.length = 0 then some ([], [])
      else some (minimizeCrashes is_crash triggers)

/-- The `Crash` namedtuple: a testcase identifier and the trigger set,
kept in the tuple order `process_crash` produced it in. -/
structure Crash where
  crash_testcase : String
  triggers : List ℤ
deriving DecidableEq

/-- Model of `_get_crash_key`: the sorted trigger IDs, rendered in decimal and
joined with `+`. -/
def get_crash_key (crash : Crash) : String :=
  String.intercalate "+" ((crash.triggers.insertionSort (· ≤ ·)).map
    (fun i => toString i))

/-- Model of one Python dict assignment `m[k] = v`: overwrite in place
when the key is present, append otherwise. -/
def insertKV (m : List (String × Crash)) (k : String) (v : Crash) :
    List (String × Crash) :=
  if m.any (fun p => decide (p.1 = k)) then
    m.map (fun p => if p.1 = k then (k, v) else p)
  else m ++ [(k, v)]

/-- Model of `do_crashes_run` with the corpus walk and per-testcase minimization
results supplied as data: for each testcase (in walk order) and each of
its crash sets, build a `Crash` record and insert it into the dict keyed
by `_get_crash_key`. -/
def do_crashes_run (testcases : List (String × List (List ℤ))) :
    List (String × Crash) :=
  testcases.foldl
    (fun crashes tc =>
      tc.2.foldl
        (fun crashes crashset =>
          insertKV crashes (get_crash_key ⟨tc.1, crashset⟩) ⟨tc.1, crashset⟩)
        crashes)
    []

/-- The flat sequence of (key, record) insertions `do_crashes_run`
performs, in processing order. -/
def crashInsertions : List (String × List (List ℤ)) → List (String × Crash)
  | [] => []
  | tc :: rest =>
    tc.2.map (fun crashset => (get_crash_key ⟨tc.1, crashset⟩, ⟨tc.1, crashset⟩))
      ++ crashInsertions rest

/-- The claim's notion of a minimal crash set over trigger set `T`:
a nonempty subset of `T` that the (deterministic) trial classification
reports as a crash, none of whose nonempty proper subsets crashes.
(The empty directive set is never executed by `process_crash`, whose
sizes start at 1, so crash-causing subsets are nonempty by construction.) -/
def MinimalCrashSet (is_crash : Finset ℤ → Bool) (T S : Finset ℤ) : Prop :=
  S.Nonempty ∧ S ⊆ T ∧ is_crash S = true ∧
    ∀ S', S' ⊂ S → S'.Nonempty → is_crash S' = false

/-- Invariant of the minimizer state after all candidate sizes up to `m`
have been processed: every recorded crash set is minimal; every minimal
crash set of size at most `m` has been recorded; and no executed candidate
strictly contains a minimal crash set. -/
def MinInv (is_crash : Finset ℤ → Bool) (T : Finset ℤ) (m : ℕ) (st : MState) :
    Prop :=
  (∀ c ∈ st.1, MinimalCrashSet is_crash T c.toFinset) ∧
  (∀ S : Finset ℤ, MinimalCrashSet is_crash T S → S.card ≤ m →
    ∃ c ∈ st.1, c.toFinset = S) ∧
  (∀ e ∈ st.2, ∀ S : Finset ℤ, MinimalCrashSet is_crash T S →
    S ⊆ e.toFinset → S = e.toFinset)

end fixreverter_run_crashes

namespace fixreverter_run_coverage

/-- The `FixReverterCov` namedtuple: reached and triggered ID sets. -/
structure FixReverterCov where
  reaches : List ℤ
  triggers : List ℤ
deriving DecidableEq

/-- The line loop of `parseFixReverterLog` (coverage variant): a
`triggered bug index` line adds its ID to both sets, an (elif)
`reached bug index` line adds its ID to `reaches` only; a non-integer
trailing token on a matching line raises, modelled by `none`. -/
def parseLoop : List (List Char) → List ℤ → List ℤ → Option FixReverterCov
  | [], reaches, triggers => some ⟨reaches, triggers⟩
  | line :: rest, reaches, triggers =>
    if hasSubstr trigPat line then
      match pyInt (lastToken line) with
      | none => none
      | some injectionID =>
        parseLoop rest (setAdd reaches injectionID) (setAdd triggers injectionID)
    else if hasSubstr reachPat line then
      match pyInt (lastToken line) with
      | none => none
      | some injectionID => parseLoop rest (setAdd reaches injectionID) triggers
    else parseLoop rest reaches triggers

/-- Model of `parseFixReverterLog` from `fixreverter_run_coverage.py`. -/
def parseFixReverterLog (output : String) : Option FixReverterCov :=
  parseLoop (splitOnChar '\n' output.toList) [] []

end fixreverter_run_coverage

/-! ### Helper lemmas about the Python-set model -/

theorem mem_setAdd {s : List ℤ} {i x : ℤ} : x ∈ setAdd s i ↔ x = i ∨ x ∈ s := by
  unfold setAdd
  split
  · constructor
    · exact Or.inr
    · rintro (rfl | hx) <;> assumption
  · rw [List.mem_orderedInsert]

theorem nodup_setAdd {s : List ℤ} (i : ℤ) (h : s.Nodup) : (setAdd s i).Nodup := by
  unfold setAdd
  split
  · exact h
  · exact ((List.perm_orderedInsert _ i s).nodup_iff).mpr (List.nodup_cons.mpr ⟨by assumption, h⟩)

theorem subset_setAdd {s : List ℤ} (i : ℤ) : s ⊆ setAdd s i :=
  fun _ hx => mem_setAdd.mpr (Or.inr hx)

namespace fixreverter_run_crashes

/-- The crashes-variant parse keeps the accumulated set duplicate-free. -/
theorem parseLoop_nodup : ∀ (lines : List (List Char)) (acc res : List ℤ),
    acc.Nodup → parseLoop lines acc = some res → res.Nodup := by
  intro lines
  induction lines with
  | nil => intro acc res h hp; simp only [parseLoop, Option.some.injEq] at hp; exact hp ▸ h
  | cons line rest ih =>
    intro acc res h hp
    by_cases ht : hasSubstr trigPat line
    · simp only [parseLoop, ht, if_true] at hp
      cases hpy : pyInt (lastToken line) with
      | none => rw [hpy] at hp; exact absurd hp (by simp)
      | some id => rw [hpy] at hp; exact ih _ _ (nodup_setAdd id h) hp
    · simp only [parseLoop, ht, if_false] at hp
      exact ih _ _ h hp

/-- Membership characterisation of the crashes-variant parse loop: an ID is
collected exactly when it was already accumulated or some line contains
`triggered bug index` with that ID as its (well-formed) trailing token. -/
theorem parseLoop_mem : ∀ (lines : List (List Char)) (acc res : List ℤ),
    parseLoop lines acc = some res → ∀ x : ℤ,
      (x ∈ res ↔ x ∈ acc ∨ ∃ line ∈ lines,
        hasSubstr trigPat line = true ∧ pyInt (lastToken line) = some x) := by
  intro lines
  induction lines with
  | nil =>
    intro acc res hp x
    simp only [parseLoop, Option.some.injEq] at hp
    simp [← hp]
  | cons line rest ih =>
    intro acc res hp x
    by_cases ht : hasSubstr trigPat line
    · simp only [parseLoop, ht, if_true] at hp
      cases hpy : pyInt (lastToken line) with
      | none => rw [hpy] at hp; exact absurd hp (by simp)
      | some id =>
        rw [hpy] at hp
        rw [ih _ _ hp x, mem_setAdd]
        simp only [List.mem_cons, ht, true_and]
        constructor
        · rintro ((rfl | hx) | ⟨l, hl, htl, hpl⟩)
          · exact Or.inr ⟨line, Or.inl rfl, by simp [ht, hpy]⟩
          · exact Or.inl hx
          · exact Or.inr ⟨l, Or.inr hl, htl, hpl⟩
        · rintro (hx | ⟨l, (rfl | hl), htl, hpl⟩)
          · exact Or.inl (Or.inr hx)
          · rw [hpy] at hpl
            exact Or.inl (Or.inl (Option.some.injEq _ _ ▸ hpl.symm :))
          · exact Or.inr ⟨l, hl, htl, hpl⟩
    · simp only [parseLoop, ht, if_false] at hp
      rw [ih _ _ hp x]
      simp only [List.mem_cons]
      constructor
      · rintro (hx | ⟨l, hl, htl, hpl⟩)
        · exact Or.inl hx
        · exact Or.inr ⟨l, Or.inr hl, htl, hpl⟩
      · rintro (hx | ⟨l, (rfl | hl), htl, hpl⟩)
        · exact Or.inl hx
        · exact absurd htl (by simp [ht])
        · exact Or.inr ⟨l, hl, htl, hpl⟩

end fixreverter_run_crashes

namespace fixreverter_run_coverage

/-- Monotonicity of the coverage parse loop: the accumulated sets only grow. -/
theorem parseLoop_mono : ∀ (lines : List (List Char)) (r t : List ℤ)
    (cov : FixReverterCov), parseLoop lines r t = some cov →
      r ⊆ cov.reaches ∧ t ⊆ cov.triggers := by
  intro lines
  induction lines with
  | nil =>
    intro r t cov hp
    simp only [parseLoop, Option.some.injEq] at hp
    subst hp
    exact ⟨fun _ h => h, fun _ h => h⟩
  | cons line rest ih =>
    intro r t cov hp
    by_cases ht : hasSubstr trigPat line
    · simp only [parseLoop, ht, if_true] at hp
      cases hpy : pyInt (lastToken line) with
      | none => rw [hpy] at hp; exact absurd hp (by simp)
      | some id =>
        rw [hpy] at hp
        obtain ⟨h1, h2⟩ := ih _ _ _ hp
        exact ⟨fun x hx => h1 (subset_setAdd id hx), fun x hx => h2 (subset_setAdd id hx)⟩
    · by_cases hr : hasSubstr reachPat line
      · simp only [parseLoop, ht, hr, if_true, if_false] at hp
        cases hpy : pyInt (lastToken line) with
        | none => rw [hpy] at hp; exact absurd hp (by simp)
        | some id =>
          rw [hpy] at hp
          obtain ⟨h1, h2⟩ := ih _ _ _ hp
          exact ⟨fun x hx => h1 (subset_setAdd id hx), h2⟩
      · simp only [parseLoop, ht, hr, if_false] at hp
        exact ih _ _ _ hp

/-- The coverage parse loop preserves `triggers ⊆ reaches`. -/
theorem parseLoop_triggers_subset : ∀ (lines : List (List Char)) (r t : List ℤ)
    (cov : FixReverterCov), t ⊆ r → parseLoop lines r t = some cov →
      cov.triggers ⊆ cov.reaches := by
  intro lines
  induction lines with
  | nil =>
    intro r t cov hsub hp
    simp only [parseLoop, Option.some.injEq] at hp
    subst hp
    exact hsub
  | cons line rest ih =>
    intro r t cov hsub hp
    by_cases ht : hasSubstr trigPat line
    · simp only [parseLoop, ht, if_true] at hp
      cases hpy : pyInt (lastToken line) with
      | none => rw [hpy] at hp; exact absurd hp (by simp)
      | some id =>
        rw [hpy] at hp
        refine ih _ _ _ (fun x hx => ?_) hp
        rcases mem_setAdd.mp hx with rfl | hx
        · exact mem_setAdd.mpr (Or.inl rfl)
        · exact subset_setAdd id (hsub hx)
    · by_cases hr : hasSubstr reachPat line
      · simp only [parseLoop, ht, hr, if_true, if_false] at hp
        cases hpy : pyInt (lastToken line) with
        | none => rw [hpy] at hp; exact absurd hp (by simp)
        | some id =>
          rw [hpy] at hp
          exact ih _ _ _ (fun x hx => subset_setAdd id (hsub hx)) hp
      · simp only [parseLoop, ht, hr, if_false] at hp
        exact ih _ _ _ hsub hp

/-- A `triggered` line's well-formed ID lands in both accumulated sets. -/
theorem parseLoop_mem_trig : ∀ (lines : List (List Char)) (r t : List ℤ)
    (cov : FixReverterCov) (line : List Char) (id : ℤ),
    parseLoop lines r t = some cov → line ∈ lines →
    hasSubstr trigPat line = true → pyInt (lastToken line) = some id →
      id ∈ cov.reaches ∧ id ∈ cov.triggers := by
  intro lines
  induction lines with
  | nil => intro _ _ _ _ _ _ hmem; exact absurd hmem (by simp)
  | cons hd rest ih =>
    intro r t cov line id hp hmem htl hpl
    rcases List.mem_cons.mp hmem with rfl | hmem
    · simp only [parseLoop, htl, if_true, hpl] at hp
      obtain ⟨h1, h2⟩ := parseLoop_mono _ _ _ _ hp
      exact ⟨h1 (mem_setAdd.mpr (Or.inl rfl)), h2 (mem_setAdd.mpr (Or.inl rfl))⟩
    · by_cases ht : hasSubstr trigPat hd
      · simp only [parseLoop, ht, if_true] at hp
        cases hpy : pyInt (lastToken hd) with
        | none => rw [hpy] at hp; exact absurd hp (by simp)
        | some id2 => rw [hpy] at hp; exact ih _ _ _ _ _ hp hmem htl hpl
      · by_cases hr : hasSubstr reachPat hd
        · simp only [parseLoop, ht, hr, if_true, if_false] at hp
          cases hpy : pyInt (lastToken hd) with
          | none => rw [hpy] at hp; exact absurd hp (by simp)
          | some id2 => rw [hpy] at hp; exact ih _ _ _ _ _ hp hmem htl hpl
        · simp only [parseLoop, ht, hr, if_false] at hp
          exact ih _ _ _ _ _ hp hmem htl hpl

/-- A reached-only line's well-formed ID lands in the reached set. -/
theorem parseLoop_mem_reach : ∀ (lines : List (List Char)) (r t : List ℤ)
    (cov : FixReverterCov) (line : List Char) (id : ℤ),
    parseLoop lines r t = some cov → line ∈ lines →
    hasSubstr trigPat line = false → hasSubstr reachPat line = true →
    pyInt (lastToken line) = some id → id ∈ cov.reaches := by
  intro lines
  induction lines with
  | nil => intro _ _ _ _ _ _ hmem; exact absurd hmem (by simp)
  | cons hd rest ih =>
    intro r t cov line id hp hmem htl hrl hpl
    rcases List.mem_cons.mp hmem with rfl | hmem
    · simp only [parseLoop, htl, hrl, if_true, if_false, Bool.false_eq_true, hpl] at hp
      exact (parseLoop_mono _ _ _ _ hp).1 (mem_setAdd.mpr (Or.inl rfl))
    · by_cases ht : hasSubstr trigPat hd
      · simp only [parseLoop, ht, if_true] at hp
        cases hpy : pyInt (lastToken hd) with
        | none => rw [hpy] at hp; exact absurd hp (by simp)
        | some id2 => rw [hpy] at hp; exact ih _ _ _ _ _ hp hmem htl hrl hpl
      · by_cases hr : hasSubstr reachPat hd
        · simp only [parseLoop, ht, hr, if_true, if_false] at hp
          cases hpy : pyInt (lastToken hd) with
          | none => rw [hpy] at hp; exact absurd hp (by simp)
          | some id2 => rw [hpy] at hp; exact ih _ _ _ _ _ hp hmem htl hrl hpl
        · simp only [parseLoop, ht, hr, if_false] at hp
          exact ih _ _ _ _ _ hp hmem htl hrl hpl

/-- Membership characterisation of the coverage parse loop's triggered
set: an ID is in it exactly when it was already accumulated or some line
contains `triggered bug index` with that ID as its well-formed trailing
token — in particular, reached-only lines contribute nothing to it. -/
theorem parseLoop_triggers_mem : ∀ (lines : List (List Char)) (r t : List ℤ)
    (cov : FixReverterCov), parseLoop lines r t = some cov → ∀ x : ℤ,
      (x ∈ cov.triggers ↔ x ∈ t ∨ ∃ line ∈ lines,
        hasSubstr trigPat line = true ∧ pyInt (lastToken line) = some x) := by
  intro lines
  induction lines with
  | nil =>
    intro r t cov hp x
    simp only [parseLoop, Option.some.injEq] at hp
    subst hp
    simp
  | cons line rest ih =>
    intro r t cov hp x
    by_cases ht : hasSubstr trigPat line
    · simp only [parseLoop, ht, if_true] at hp
      cases hpy : pyInt (lastToken line) with
      | none => rw [hpy] at hp; exact absurd hp (by simp)
      | some id =>
        rw [hpy] at hp
        rw [ih _ _ _ hp x, mem_setAdd]
        simp only [List.mem_cons, ht, true_and]
        constructor
        · rintro ((rfl | hx) | ⟨l, hl, htl, hpl⟩)
          · exact Or.inr ⟨line, Or.inl rfl, by simp [ht, hpy]⟩
          · exact Or.inl hx
          · exact Or.inr ⟨l, Or.inr hl, htl, hpl⟩
        · rintro (hx | ⟨l, (rfl | hl), htl, hpl⟩)
          · exact Or.inl (Or.inr hx)
          · rw [hpy] at hpl
            exact Or.inl (Or.inl (Option.some.injEq _ _ ▸ hpl.symm :))
          · exact Or.inr ⟨l, hl, htl, hpl⟩
    · by_cases hr : hasSubstr reachPat line
      · simp only [parseLoop, ht, hr, if_true, if_false] at hp
        cases hpy : pyInt (lastToken line) with
        | none => rw [hpy] at hp; exact absurd hp (by simp)
        | some id =>
          rw [hpy] at hp
          rw [ih _ _ _ hp x]
          simp only [List.mem_cons]
          constructor
          · rintro (hx | ⟨l, hl, htl, hpl⟩)
            · exact Or.inl hx
            · exact Or.inr ⟨l, Or.inr hl, htl, hpl⟩
          · rintro (hx | ⟨l, (rfl | hl), htl, hpl⟩)
            · exact Or.inl hx
            · exact absurd htl (by simp [ht])
            · exact Or.inr ⟨l, hl, htl, hpl⟩
      · simp only [parseLoop, ht, hr, if_false] at hp
        rw [ih _ _ _ hp x]
        simp only [List.mem_cons]
        constructor
        · rintro (hx | ⟨l, hl, htl, hpl⟩)
          · exact Or.inl hx
          · exact Or.inr ⟨l, Or.inr hl, htl, hpl⟩
        · rintro (hx | ⟨l, (rfl | hl), htl, hpl⟩)
          · exact Or.inl hx
          · exact absurd htl (by simp [ht])
          · exact Or.inr ⟨l, hl, htl, hpl⟩

/-- Lines matching neither pattern leave the parse state untouched. -/
theorem parseLoop_no_match : ∀ (lines : List (List Char)) (r t : List ℤ),
    (∀ line ∈ lines, hasSubstr trigPat line = false ∧
      hasSubstr reachPat line = false) →
    parseLoop lines r t = some ⟨r, t⟩ := by
  intro lines
  induction lines with
  | nil => intro r t _; rfl
  | cons hd rest ih =>
    intro r t h
    obtain ⟨ht, hr⟩ := h hd (List.mem_cons_self hd rest)
    simp only [parseLoop, ht, hr, if_false, Bool.false_eq_true]
    exact ih _ _ (fun l hl => h l (List.mem_cons_of_mem hd hl))

end fixreverter_run_coverage

namespace fixreverter_run_coverage

/-- C5: for every output text, the coverage-variant `parseFixReverterLog`
adds the ID of each `triggered bug index` line to both the reached and
triggered sets, adds the ID of each line containing only the
`reached bug index` substring to the reached set only — the triggered set
holds exactly the IDs of `triggered bug index` lines, so reached-only
lines never put an ID into it — returns `reached ⊇ triggered`, and
returns a pair of empty sets (not an error) when no line matches either
pattern. -/
theorem claim_C5 :
    (∀ (output : String) (cov : FixReverterCov),
      parseFixReverterLog output = some cov → cov.triggers ⊆ cov.reaches)
    ∧ (∀ (output : String) (cov : FixReverterCov) (line : List Char) (id : ℤ),
      parseFixReverterLog output = some cov →
      line ∈ splitOnChar '\n' output.toList → hasSubstr trigPat line = true →
      pyInt (lastToken line) = some id → id ∈ cov.reaches ∧ id ∈ cov.triggers)
    ∧ (∀ (output : String) (cov : FixReverterCov) (line : List Char) (id : ℤ),
      parseFixReverterLog output = some cov →
      line ∈ splitOnChar '\n' output.toList → hasSubstr trigPat line = false →
      hasSubstr reachPat line = true → pyInt (lastToken line) = some id →
      id ∈ cov.reaches)
    ∧ (∀ (output : String) (cov : FixReverterCov),
      parseFixReverterLog output = some cov →
      ∀ x : ℤ, x ∈ cov.triggers ↔ ∃ line ∈ splitOnChar '\n' output.toList,
        hasSubstr trigPat line = true ∧ pyInt (lastToken line) = some x)
    ∧ (∀ output : String, (∀ line ∈ splitOnChar '\n' output.toList,
      hasSubstr trigPat line = false ∧ hasSubstr reachPat line = false) →
      parseFixReverterLog output = some ⟨[], []⟩) := by
  refine ⟨?_, ?_, ?_, ?_, ?_⟩
  · intro output cov hp
    exact parseLoop_triggers_subset _ _ _ _ (fun x hx => absurd hx (List.not_mem_nil x)) hp
  · intro output cov line id hp hmem htl hpl
    exact parseLoop_mem_trig _ _ _ _ _ _ hp hmem htl hpl
  · intro output cov line id hp hmem htl hrl hpl
    exact parseLoop_mem_reach _ _ _ _ _ _ hp hmem htl hrl hpl
  · intro output cov hp x
    rw [parseLoop_triggers_mem _ _ _ _ hp x]
    simp
  · intro output h
    exact parseLoop_no_match _ _ _ h

/-- Witness for C5 at the concrete two-line output of the spec's
Examples 1 and 2, at a reached-only output (whose ID is characterised out
of the empty triggered set), and at a no-match output. -/
theorem claim_C5_witness :
    (([4] : List ℤ) ⊆ [4, 7])
    ∧ ((4 : ℤ) ∈ ([4, 7] : List ℤ) ∧ (4 : ℤ) ∈ ([4] : List ℤ))
    ∧ ((7 : ℤ) ∈ ([4, 7] : List ℤ))
    ∧ ((7 : ℤ) ∈ ([] : List ℤ) ↔
      ∃ line ∈ splitOnChar '\n' ("bar reached bug index 7").toList,
        hasSubstr trigPat line = true ∧ pyInt (lastToken line) = some 7)
    ∧ parseFixReverterLog "no events here" = some ⟨[], []⟩ :=
  ⟨claim_C5.1 "foo triggered bug index 4\nbar reached bug index 7" ⟨[4, 7], [4]⟩
      (by decide),
   claim_C5.2.1 "foo triggered bug index 4\nbar reached bug index 7" ⟨[4, 7], [4]⟩
      "foo triggered bug index 4".toList 4 (by decide) (by decide) (by decide)
      (by decide),
   claim_C5.2.2.1 "foo triggered bug index 4\nbar reached bug index 7" ⟨[4, 7], [4]⟩
      "bar reached bug index 7".toList 7 (by decide) (by decide) (by decide)
      (by decide) (by decide),
   claim_C5.2.2.2.1 "bar reached bug index 7" ⟨[7], []⟩ (by decide) 7,
   claim_C5.2.2.2.2 "no events here" (by decide)⟩

end fixreverter_run_coverage

namespace fixreverter_run_crashes

/-- A malformed trailing token on a matching line aborts the whole parse. -/
theorem parseLoop_bad_line : ∀ (lines : List (List Char)) (acc : List ℤ),
    (∃ line ∈ lines, hasSubstr trigPat line = true ∧
      pyInt (lastToken line) = none) →
    parseLoop lines acc = none := by
  intro lines
  induction lines with
  | nil => rintro acc ⟨l, hl, -⟩; exact absurd hl (by simp)
  | cons hd rest ih =>
    rintro acc ⟨l, hl, htl, hpl⟩
    rcases List.mem_cons.mp hl with rfl | hl
    · simp [parseLoop, htl, hpl]
    · by_cases ht : hasSubstr trigPat hd
      · simp only [parseLoop, ht, if_true]
        cases hpy : pyInt (lastToken hd) with
        | none => rfl
        | some id => exact ih _ ⟨l, hl, htl, hpl⟩
      · simp only [parseLoop, ht, if_false, Bool.false_eq_true]
        exact ih _ ⟨l, hl, htl, hpl⟩

/-- Counterexample to C6 as stated: in this output the first
`triggered bug index` line has the non-integer trailing token `x`, and the
crashes-variant parser then does NOT return the ID `4` of the well-formed
second line — the whole parse fails (the source raises `ValueError`). -/
theorem claim_C6_counterexample :
    ¬ ∃ res : List ℤ,
      parseFixReverterLog "foo triggered bug index x\nbar triggered bug index 4"
        = some res ∧ (4 : ℤ) ∈ res := by
  rintro ⟨res, h, -⟩
  have hn : parseFixReverterLog
      "foo triggered bug index x\nbar triggered bug index 4" = none := by decide
  rw [hn] at h
  exact Option.noConfusion h

/-- C6 amended: a matching log line whose trailing whitespace-delimited
token is not an integer aborts the whole parse (the `ValueError` of
`int()` propagates): no IDs are returned, not even from well-formed lines
elsewhere in the same output. -/
theorem claim_C6 (output : String)
    (h : ∃ line ∈ splitOnChar '\n' output.toList,
      hasSubstr trigPat line = true ∧ pyInt (lastToken line) = none) :
    parseFixReverterLog output = none :=
  parseLoop_bad_line _ _ h

/-- Witness for the amended C6 at a concrete malformed output. -/
theorem claim_C6_witness :
    parseFixReverterLog "foo triggered bug index x\nbar triggered bug index 4"
      = none :=
  claim_C6 "foo triggered bug index x\nbar triggered bug index 4"
    ⟨"foo triggered bug index x".toList, by decide, by decide, by decide⟩

/-- C7: `isCrash` returns `false` when the captured output is empty, when
the external stack-trace classifier yields an empty crash state, and when
the crash type is `Timeout` or `Out-of-memory`; it returns `true` in all
remaining cases. -/
theorem claim_C7 (stackClassifier : String → String → CrashResult)
    (result : ExecResult) (app_binary : String) :
    isCrash stackClassifier result app_binary = true ↔
      (result.output ≠ "" ∧
        (stackClassifier (basename app_binary) result.output).crash_state ≠ "" ∧
        (stackClassifier (basename app_binary) result.output).crash_type ≠ "Timeout" ∧
        (stackClassifier (basename app_binary) result.output).crash_type ≠ "Out-of-memory") := by
  unfold isCrash
  split_ifs <;> simp_all

/-- C10: the crashes-variant parser collects exactly the IDs of the
`triggered bug index` lines (with well-formed trailing tokens) into its
single `triggers` set; a line not containing that substring — in
particular a line containing only `reached bug index` — leaves the parse
state unchanged, so such lines never influence the result handed to the
minimizer. -/
theorem claim_C10 :
    (∀ (output : String) (res : List ℤ), parseFixReverterLog output = some res →
      ∀ x : ℤ, x ∈ res ↔ ∃ line ∈ splitOnChar '\n' output.toList,
        hasSubstr trigPat line = true ∧ pyInt (lastToken line) = some x)
    ∧ (∀ (line : List Char) (rest : List (List Char)) (acc : List ℤ),
      hasSubstr trigPat line = false →
      parseLoop (line :: rest) acc = parseLoop rest acc) := by
  constructor
  · intro output res hp x
    rw [parseLoop_mem _ _ _ hp x]
    simp
  · intro line rest acc ht
    simp [parseLoop, ht]

/-- Witness for C10: a concrete output with one reached-only line and one
triggered line; the parse collects exactly the triggered ID, and dropping
the reached-only line does not change the parse state. -/
theorem claim_C10_witness :
    ((3 : ℤ) ∈ ([3] : List ℤ) ↔ ∃ line ∈ splitOnChar '\n'
      ("zz reached bug index 7\nyy triggered bug index 3").toList,
      hasSubstr trigPat line = true ∧ pyInt (lastToken line) = some 3)
    ∧ parseLoop ["zz reached bug index 7".toList, "yy triggered bug index 3".toList] []
        = parseLoop ["yy triggered bug index 3".toList] [] :=
  ⟨claim_C10.1 "zz reached bug index 7\nyy triggered bug index 3" [3] (by decide) 3,
   claim_C10.2 "zz reached bug index 7".toList ["yy triggered bug index 3".toList] []
      (by decide)⟩

/-- C8: the crash key is the ascending-sorted trigger IDs joined by `+`;
it depends only on the underlying set: any two duplicate-free
presentations with the same elements give equal keys, and
`key({3,1,2}) = key({1,2,3}) = "1+2+3"`. -/
theorem claim_C8 :
    (∀ c1 c2 : Crash, c1.triggers.Nodup → c2.triggers.Nodup →
      (∀ x, x ∈ c1.triggers ↔ x ∈ c2.triggers) →
      get_crash_key c1 = get_crash_key c2)
    ∧ get_crash_key ⟨"t1", [3, 1, 2]⟩ = "1+2+3"
    ∧ get_crash_key ⟨"t2", [1, 2, 3]⟩ = "1+2+3" := by
  refine ⟨?_, by decide, by decide⟩
  intro c1 c2 h1 h2 hmem
  suffices h : List.insertionSort (· ≤ ·) c1.triggers
      = List.insertionSort (· ≤ ·) c2.triggers by
    rw [get_crash_key, get_crash_key, h]
  have hperm : c1.triggers.Perm c2.triggers :=
    (List.perm_ext_iff_of_nodup h1 h2).mpr hmem
  exact List.eq_of_perm_of_sorted
    (((List.perm_insertionSort _ c1.triggers).trans hperm).trans
      (List.perm_insertionSort _ c2.triggers).symm)
    (List.sorted_insertionSort _ c1.triggers)
    (List.sorted_insertionSort _ c2.triggers)

/-- Witness for C8 at two reorderings of the same trigger set. -/
theorem claim_C8_witness :
    get_crash_key ⟨"a", [3, 1, 2]⟩ = get_crash_key ⟨"b", [2, 3, 1]⟩ :=
  claim_C8.1 ⟨"a", [3, 1, 2]⟩ ⟨"b", [2, 3, 1]⟩ (by decide) (by decide)
    (by intro x; simp only [List.mem_cons, List.not_mem_nil, or_false]; tauto)

end fixreverter_run_crashes

namespace fixreverter_run_crashes

/-- Every member of `combinations n l` has length `n`. -/
theorem combinations_length {α : Type} : ∀ (l : List α) (n : ℕ) (c : List α),
    c ∈ combinations n l → c.length = n := by
  intro l
  induction l with
  | nil =>
    intro n c hc
    cases n with
    | zero => simp only [combinations, List.mem_singleton] at hc; simp [hc]
    | succ m => exact absurd hc (by simp [combinations])
  | cons x xs ih =>
    intro n c hc
    cases n with
    | zero => simp only [combinations, List.mem_singleton] at hc; simp [hc]
    | succ m =>
      simp only [combinations, List.mem_append, List.mem_map] at hc
      rcases hc with ⟨c', hc', rfl⟩ | hc
      · simp [ih m c' hc']
      · exact ih (m + 1) c hc

/-- Every member of `combinations n l` is a subsequence of `l`. -/
theorem combinations_sublist {α : Type} : ∀ (l : List α) (n : ℕ) (c : List α),
    c ∈ combinations n l → c.Sublist l := by
  intro l
  induction l with
  | nil =>
    intro n c hc
    cases n with
    | zero => simp only [combinations, List.mem_singleton] at hc; simp [hc]
    | succ m => exact absurd hc (by simp [combinations])
  | cons x xs ih =>
    intro n c hc
    cases n with
    | zero =>
      simp only [combinations, List.mem_singleton] at hc
      simp [hc]
    | succ m =>
      simp only [combinations, List.mem_append, List.mem_map] at hc
      rcases hc with ⟨c', hc', rfl⟩ | hc
      · exact (ih m c' hc').cons₂ x
      · exact (ih (m + 1) c hc).cons x

/-- Completeness of `combinations`: for a duplicate-free `l`, every subset
of `l` of size `n` is the element set of some member of `combinations n l`. -/
theorem combinations_complete : ∀ (l : List ℤ), l.Nodup → ∀ (S : Finset ℤ),
    S ⊆ l.toFinset → ∀ n : ℕ, S.card = n →
    ∃ c ∈ combinations n l, c.toFinset = S := by
  intro l
  induction l with
  | nil =>
    intro _ S hsub n hcard
    have hS : S = ∅ := Finset.subset_empty.mp (by simpa using hsub)
    subst hS
    simp only [Finset.card_empty] at hcard
    subst hcard
    exact ⟨[], by simp [combinations], by simp⟩
  | cons x xs ih =>
    intro hnd S hsub n hcard
    obtain ⟨hx, hndxs⟩ := List.nodup_cons.mp hnd
    cases n with
    | zero =>
      have hS : S = ∅ := Finset.card_eq_zero.mp hcard
      subst hS
      exact ⟨[], by simp [combinations], by simp⟩
    | succ m =>
      by_cases hxS : x ∈ S
      · have hsub' : S.erase x ⊆ xs.toFinset := by
          intro y hy
          obtain ⟨hyx, hyS⟩ := Finset.mem_erase.mp hy
          have := hsub hyS
          rw [List.toFinset_cons, Finset.mem_insert] at this
          exact this.resolve_left hyx
        have hcard' : (S.erase x).card = m := by
          rw [Finset.card_erase_of_mem hxS, hcard]
          omega
        obtain ⟨c', hc', hc'fin⟩ := ih hndxs (S.erase x) hsub' m hcard'
        refine ⟨x :: c', ?_, ?_⟩
        · simp only [combinations, List.mem_append, List.mem_map]
          exact Or.inl ⟨c', hc', rfl⟩
        · rw [List.toFinset_cons, hc'fin, Finset.insert_erase hxS]
      · have hsub' : S ⊆ xs.toFinset := by
          intro y hy
          have := hsub hy
          rw [List.toFinset_cons, Finset.mem_insert] at this
          refine this.resolve_left (fun hyx => hxS (hyx ▸ hy))
        obtain ⟨c, hc, hcfin⟩ := ih hndxs S hsub' (m + 1) hcard
        refine ⟨c, ?_, hcfin⟩
        simp only [combinations, List.mem_append]
        exact Or.inr hc

end fixreverter_run_crashes

namespace fixreverter_run_crashes

/-- The Python skip test `set(currset).issuperset(crash)`, in set terms. -/
theorem any_superset_iff (crashes : List (List ℤ)) (cand : List ℤ) :
    (crashes.any (fun crash => crash.all (fun i => decide (i ∈ cand))) = true) ↔
      ∃ c ∈ crashes, c.toFinset ⊆ cand.toFinset := by
  simp only [List.any_eq_true, List.all_eq_true, decide_eq_true_eq]
  constructor
  · rintro ⟨c, hc, h⟩
    exact ⟨c, hc, fun y hy => List.mem_toFinset.mpr (h y (List.mem_toFinset.mp hy))⟩
  · rintro ⟨c, hc, h⟩
    exact ⟨c, hc, fun y hy => List.mem_toFinset.mp (h (List.mem_toFinset.mpr hy))⟩

/-- A candidate that contains an already recorded crash set is skipped:
the state (in particular the execution trace) is unchanged. -/
theorem crashStep_skip (o : Finset ℤ → Bool) (st : MState) (cand : List ℤ)
    (h : ∃ c ∈ st.1, c.toFinset ⊆ cand.toFinset) : crashStep o st cand = st := by
  unfold crashStep
  rw [if_pos ((any_superset_iff st.1 cand).mpr h)]

/-- A candidate that is not skipped is executed and recorded iff it crashes. -/
theorem crashStep_exec (o : Finset ℤ → Bool) (st : MState) (cand : List ℤ)
    (h : ¬ ∃ c ∈ st.1, c.toFinset ⊆ cand.toFinset) :
    crashStep o st cand =
      if o cand.toFinset then (st.1 ++ [cand], st.2 ++ [cand])
      else (st.1, st.2 ++ [cand]) := by
  unfold crashStep
  rw [if_neg (fun hb => h ((any_superset_iff st.1 cand).mp hb))]

/-- Recorded crash sets persist across one step. -/
theorem crashStep_crashes_mono (o : Finset ℤ → Bool) (st : MState)
    (cand : List ℤ) {x : List ℤ} (hx : x ∈ st.1) :
    x ∈ (crashStep o st cand).1 := by
  unfold crashStep
  split
  · exact hx
  · split
    · exact List.mem_append_left _ hx
    · exact hx

/-- Recorded crash sets persist across a whole candidate fold. -/
theorem foldl_crashes_mono (o : Finset ℤ → Bool) :
    ∀ (cands : List (List ℤ)) (st : MState) (x : List ℤ),
    x ∈ st.1 → x ∈ (cands.foldl (crashStep o) st).1 := by
  intro cands
  induction cands with
  | nil => intro st x hx; exact hx
  | cons hd rest ih =>
    intro st x hx
    rw [List.foldl_cons]
    exact ih _ _ (crashStep_crashes_mono o st hd hx)

/-- Every nonempty crashing subset of `T` contains a minimal crash set. -/
theorem exists_minimal_crash (o : Finset ℤ → Bool) (T : Finset ℤ) :
    ∀ (n : ℕ) (S : Finset ℤ), S.card ≤ n → S.Nonempty → S ⊆ T → o S = true →
      ∃ M, MinimalCrashSet o T M ∧ M ⊆ S := by
  intro n
  induction n with
  | zero =>
    intro S hc hne _ _
    exact absurd (Finset.card_pos.mpr hne) (by omega)
  | succ m ih =>
    intro S hc hne hsub ho
    by_cases h : ∃ S' : Finset ℤ, S' ⊂ S ∧ S'.Nonempty ∧ o S' = true
    · obtain ⟨S', hss, hne', ho'⟩ := h
      have hlt := Finset.card_lt_card hss
      obtain ⟨M, hM, hMs⟩ := ih S' (by omega) hne' (hss.subset.trans hsub) ho'
      exact ⟨M, hM, hMs.trans hss.subset⟩
    · refine ⟨S, ⟨hne, hsub, ho, ?_⟩, Finset.Subset.refl S⟩
      intro S' hss hne'
      cases hoS' : o S' with
      | true => exact absurd ⟨S', hss, hne', hoS'⟩ h
      | false => rfl

/-- Two distinct minimal crash sets are incomparable. -/
theorem minimal_incomp (o : Finset ℤ → Bool) (T : Finset ℤ) {S1 S2 : Finset ℤ}
    (h1 : MinimalCrashSet o T S1) (h2 : MinimalCrashSet o T S2)
    (hne : S1 ≠ S2) : ¬ S1 ⊆ S2 := by
  intro hsub
  have hss : S1 ⊂ S2 := Finset.ssubset_iff_subset_ne.mpr ⟨hsub, hne⟩
  have hfalse := h2.2.2.2 S1 hss h1.1
  rw [h1.2.2.1] at hfalse
  exact Bool.noConfusion hfalse

/-- One minimizer step preserves the invariant over a size-`n` candidate,
and if that candidate's element set is a minimal crash set then it is
recorded (or already present) after the step. -/
theorem crashStep_inv (o : Finset ℤ → Bool) (T : Finset ℤ) (n : ℕ)
    (hn : 1 ≤ n) (st : MState) (cand : List ℤ) (hsub : cand.toFinset ⊆ T)
    (hcard : cand.toFinset.card = n) (hinv : MinInv o T (n - 1) st) :
    MinInv o T (n - 1) (crashStep o st cand) ∧
    (MinimalCrashSet o T cand.toFinset →
      ∃ c ∈ (crashStep o st cand).1, c.toFinset = cand.toFinset) := by
  obtain ⟨hsound, hcomp, hexec⟩ := hinv
  by_cases hskip : ∃ c ∈ st.1, c.toFinset ⊆ cand.toFinset
  · rw [crashStep_skip o st cand hskip]
    refine ⟨⟨hsound, hcomp, hexec⟩, ?_⟩
    intro hmin
    obtain ⟨c, hc, hcsub⟩ := hskip
    refine ⟨c, hc, ?_⟩
    by_contra hcne
    have hss : c.toFinset ⊂ cand.toFinset :=
      Finset.ssubset_iff_subset_ne.mpr ⟨hcsub, hcne⟩
    have hcmin := hsound c hc
    have hfalse := hmin.2.2.2 c.toFinset hss hcmin.1
    rw [hcmin.2.2.1] at hfalse
    exact Bool.noConfusion hfalse
  · have hnoskip : ∀ c ∈ st.1, ¬ c.toFinset ⊆ cand.toFinset := by
      intro c hc hcsub
      exact hskip ⟨c, hc, hcsub⟩
    have hcandmin : ∀ S : Finset ℤ, MinimalCrashSet o T S →
        S ⊆ cand.toFinset → S = cand.toFinset := by
      intro S hS hSsub
      by_contra hne
      have hss : S ⊂ cand.toFinset := Finset.ssubset_iff_subset_ne.mpr ⟨hSsub, hne⟩
      have hlt := Finset.card_lt_card hss
      obtain ⟨c, hc, hceq⟩ := hcomp S hS (by omega)
      exact hnoskip c hc (by rw [hceq]; exact hSsub)
    rw [crashStep_exec o st cand hskip]
    cases ho : o cand.toFinset with
    | true =>
      rw [if_pos rfl]
      have hcandIsMin : MinimalCrashSet o T cand.toFinset := by
        refine ⟨Finset.card_pos.mp (by omega), hsub, ho, ?_⟩
        intro S' hss' hne'
        cases hS' : o S' with
        | false => rfl
        | true =>
          exfalso
          obtain ⟨M, hM, hMsub⟩ :=
            exists_minimal_crash o T S'.card S' le_rfl hne'
              (hss'.subset.trans hsub) hS'
          have hMeq := hcandmin M hM (hMsub.trans hss'.subset)
          have h1 := Finset.card_le_card hMsub
          have h2 := Finset.card_lt_card hss'
          rw [hMeq] at h1
          omega
      refine ⟨⟨?_, ?_, ?_⟩, ?_⟩
      · intro c hc
        rcases List.mem_append.mp hc with hc | hc
        · exact hsound c hc
        · rw [List.mem_singleton.mp hc]
          exact hcandIsMin
      · intro S hS hScard
        obtain ⟨c, hc, hceq⟩ := hcomp S hS hScard
        exact ⟨c, List.mem_append_left _ hc, hceq⟩
      · intro e he S hS hSsub
        rcases List.mem_append.mp he with he | he
        · exact hexec e he S hS hSsub
        · rw [List.mem_singleton.mp he] at hSsub ⊢
          exact hcandmin S hS hSsub
      · intro _
        exact ⟨cand, List.mem_append_right _ (List.mem_singleton.mpr rfl), rfl⟩
    | false =>
      rw [if_neg (by simp)]
      refine ⟨⟨hsound, hcomp, ?_⟩, ?_⟩
      · intro e he S hS hSsub
        rcases List.mem_append.mp he with he | he
        · exact hexec e he S hS hSsub
        · rw [List.mem_singleton.mp he] at hSsub ⊢
          exact hcandmin S hS hSsub
      · intro hmin
        rw [hmin.2.2.1] at ho
        exact Bool.noConfusion ho

/-- Folding over any list of size-`n` candidates preserves the invariant,
and every candidate whose element set is minimal ends up recorded. -/
theorem foldl_inv (o : Finset ℤ → Bool) (T : Finset ℤ) (n : ℕ) (hn : 1 ≤ n) :
    ∀ (cands : List (List ℤ)) (st : MState),
    (∀ c ∈ cands, c.toFinset ⊆ T ∧ c.toFinset.card = n) →
    MinInv o T (n - 1) st →
    MinInv o T (n - 1) (cands.foldl (crashStep o) st) ∧
    (∀ cand ∈ cands, MinimalCrashSet o T cand.toFinset →
      ∃ c ∈ (cands.foldl (crashStep o) st).1, c.toFinset = cand.toFinset) := by
  intro cands
  induction cands with
  | nil =>
    intro st _ hinv
    exact ⟨hinv, by simp⟩
  | cons hd rest ih =>
    intro st hconds hinv
    obtain ⟨hhd1, hhd2⟩ := hconds hd (List.mem_cons_self hd rest)
    obtain ⟨hinv', hpres⟩ := crashStep_inv o T n hn st hd hhd1 hhd2 hinv
    obtain ⟨hinvf, hpresrest⟩ :=
      ih (crashStep o st hd)
        (fun c hc => hconds c (List.mem_cons_of_mem hd hc)) hinv'
    rw [List.foldl_cons]
    refine ⟨hinvf, ?_⟩
    intro cand hcand hmin
    rcases List.mem_cons.mp hcand with rfl | hcand
    · obtain ⟨c, hc, hceq⟩ := hpres hmin
      exact ⟨c, foldl_crashes_mono o rest _ c hc, hceq⟩
    · exact hpresrest cand hcand hmin

/-- Processing all candidates of size `n` extends the invariant from
`n - 1` to `n`. -/
theorem runSize_inv (o : Finset ℤ → Bool) (tl : List ℤ) (hnd : tl.Nodup)
    (n : ℕ) (hn : 1 ≤ n) (st : MState)
    (hinv : MinInv o tl.toFinset (n - 1) st) :
    MinInv o tl.toFinset n (runSize o tl st n) := by
  have hconds : ∀ c ∈ combinations n tl,
      c.toFinset ⊆ tl.toFinset ∧ c.toFinset.card = n := by
    intro c hc
    have hsl := combinations_sublist tl n c hc
    refine ⟨fun x hx => List.mem_toFinset.mpr (hsl.subset (List.mem_toFinset.mp hx)), ?_⟩
    rw [List.toFinset_card_of_nodup (hnd.sublist hsl), combinations_length tl n c hc]
  obtain ⟨hinvf, hpres⟩ :=
    foldl_inv o tl.toFinset n hn (combinations n tl) st hconds hinv
  obtain ⟨hsound, hcomp, hexec⟩ := hinvf
  refine ⟨hsound, ?_, hexec⟩
  intro S hS hScard
  by_cases hc : S.card ≤ n - 1
  · exact hcomp S hS hc
  · have hcn : S.card = n := by omega
    obtain ⟨c, hcmem, hcfin⟩ := combinations_complete tl hnd S hS.2.1 n hcn
    obtain ⟨d, hd, hdeq⟩ := hpres c hcmem (by rw [hcfin]; exact hS)
    exact ⟨d, hd, hdeq.trans hcfin⟩

/-- The ascending-size loop establishes the invariant at `m + k` starting
from `m`. -/
theorem loop_inv (o : Finset ℤ → Bool) (tl : List ℤ) (hnd : tl.Nodup) :
    ∀ (k m : ℕ) (st : MState), MinInv o tl.toFinset m st →
    MinInv o tl.toFinset (m + k)
      ((List.range' (m + 1) k).foldl (runSize o tl) st) := by
  intro k
  induction k with
  | zero =>
    intro m st hinv
    simpa using hinv
  | succ k ih =>
    intro m st hinv
    rw [List.range'_succ (m + 1) k 1, List.foldl_cons]
    have h1 : MinInv o tl.toFinset ((m + 1) - 1) st := by simpa using hinv
    have h2 := runSize_inv o tl hnd (m + 1) (by omega) st h1
    have h3 := ih (m + 1) _ h2
    have harith : m + 1 + k = m + (k + 1) := by omega
    rw [harith] at h3
    exact h3

/-- The invariant holds for the full minimizer run, at bound `|triggers|`. -/
theorem minimizeCrashes_inv (o : Finset ℤ → Bool) (tl : List ℤ)
    (hnd : tl.Nodup) :
    MinInv o tl.toFinset tl.length (minimizeCrashes o tl) := by
  have hbase : MinInv o tl.toFinset 0 ([], []) := by
    refine ⟨by simp, ?_, by simp⟩
    intro S hS hScard
    exact absurd (Finset.card_pos.mpr hS.1) (by omega)
  have h := loop_inv o tl hnd tl.length 0 ([], []) hbase
  simpa [minimizeCrashes] using h

/-- The recorded crash sets are exactly the minimal crash sets. -/
theorem minimizeCrashes_iff (o : Finset ℤ → Bool) (tl : List ℤ)
    (hnd : tl.Nodup) (S : Finset ℤ) :
    (∃ c ∈ (minimizeCrashes o tl).1, c.toFinset = S) ↔
      MinimalCrashSet o tl.toFinset S := by
  obtain ⟨hsound, hcomp, _⟩ := minimizeCrashes_inv o tl hnd
  constructor
  · rintro ⟨c, hc, rfl⟩
    exact hsound c hc
  · intro hS
    refine hcomp S hS ?_
    exact le_trans (Finset.card_le_card hS.2.1) tl.toFinset_card_le

end fixreverter_run_crashes

namespace fixreverter_run_crashes

/-- On a crashing baseline with a nonempty well-formed triggered set,
`process_crash` runs the minimizer on the parsed triggers. -/
theorem process_crash_eq (stackClassifier : String → String → CrashResult)
    (app_binary crash_testcase_path : String) (baseline : ExecResult)
    (is_crash : Finset ℤ → Bool) (triggers : List ℤ)
    (hpre : ("oom-".toList.isPrefixOf (basename crash_testcase_path).toList
      || "timeout-".toList.isPrefixOf (basename crash_testcase_path).toList) = false)
    (hcrash : isCrash stackClassifier baseline app_binary = true)
    (hparse : parseFixReverterLog baseline.output = some triggers)
    (hne : triggers ≠ []) :
    process_crash stackClassifier app_binary crash_testcase_path baseline is_crash
      = some (minimizeCrashes is_crash triggers) := by
  unfold process_crash
  rw [hpre, hcrash, hparse]
  simp [hne]

/-- Every `some` result of `process_crash` is either the empty state or a
full minimizer run on the (duplicate-free) parsed triggered set. -/
theorem process_crash_cases (stackClassifier : String → String → CrashResult)
    (app_binary crash_testcase_path : String) (baseline : ExecResult)
    (is_crash : Finset ℤ → Bool) (st : MState)
    (hres : process_crash stackClassifier app_binary crash_testcase_path baseline
      is_crash = some st) :
    st = ([], []) ∨ ∃ triggers : List ℤ, triggers.Nodup ∧
      parseFixReverterLog baseline.output = some triggers ∧
      st = minimizeCrashes is_crash triggers := by
  unfold process_crash at hres
  by_cases h1 : ("oom-".toList.isPrefixOf (basename crash_testcase_path).toList
      || "timeout-".toList.isPrefixOf (basename crash_testcase_path).toList) = true
  · rw [if_pos h1] at hres
    exact Or.inl (Option.some.inj hres).symm
  · rw [if_neg h1] at hres
    by_cases h2 : (!isCrash stackClassifier baseline app_binary) = true
    · rw [if_pos h2] at hres
      exact Or.inl (Option.some.inj hres).symm
    · rw [if_neg h2] at hres
      cases hp : parseFixReverterLog baseline.output with
      | none => rw [hp] at hres; exact Option.noConfusion hres
      | some triggers =>
        rw [hp] at hres
        have hres' : (if triggers.length = 0 then some (([], []) : MState)
            else some (minimizeCrashes is_crash triggers)) = some st := hres
        by_cases h3 : triggers.length = 0
        · rw [if_pos h3] at hres'
          exact Or.inl (Option.some.inj hres').symm
        · rw [if_neg h3] at hres'
          exact Or.inr ⟨triggers, parseLoop_nodup _ _ _ List.nodup_nil hp, rfl,
            (Option.some.inj hres').symm⟩

/-- C1: for a testcase whose baseline run is a crash with a nonempty
triggered set (and a crash classification that is a deterministic function
`is_crash` of the candidate subset), the crash sets returned by
`process_crash` are exactly the minimal crash-causing subsets of the
triggered set: each returned set crashes, no nonempty proper subset of a
returned set crashes, and every minimal crash-causing subset is returned.
(Candidate sizes start at 1, so crash-causing subsets are the nonempty
ones; the empty directive set is never executed.) -/
theorem claim_C1 (stackClassifier : String → String → CrashResult)
    (app_binary crash_testcase_path : String) (baseline : ExecResult)
    (is_crash : Finset ℤ → Bool) (triggers : List ℤ) (st : MState)
    (hpre : ("oom-".toList.isPrefixOf (basename crash_testcase_path).toList
      || "timeout-".toList.isPrefixOf (basename crash_testcase_path).toList) = false)
    (hcrash : isCrash stackClassifier baseline app_binary = true)
    (hparse : parseFixReverterLog baseline.output = some triggers)
    (hne : triggers ≠ [])
    (hres : process_crash stackClassifier app_binary crash_testcase_path baseline
      is_crash = some st) :
    ∀ S : Finset ℤ, (∃ c ∈ st.1, c.toFinset = S) ↔
      MinimalCrashSet is_crash triggers.toFinset S := by
  have hnd : triggers.Nodup := parseLoop_nodup _ _ _ List.nodup_nil hparse
  rw [process_crash_eq stackClassifier app_binary crash_testcase_path baseline
    is_crash triggers hpre hcrash hparse hne] at hres
  rw [← Option.some.inj hres]
  exact minimizeCrashes_iff is_crash triggers hnd

/-- Witness for C1: baseline triggers `{1, 2}`, crash iff injection 1 is
enabled; the returned crash list is `[[1]]` and `{1}` is minimal. -/
theorem claim_C1_witness :
    (∃ c ∈ ([[1]] : List (List ℤ)), c.toFinset = ({1} : Finset ℤ)) ↔
      MinimalCrashSet (fun S => decide ((1 : ℤ) ∈ S))
        ([1, 2] : List ℤ).toFinset {1} :=
  claim_C1 (fun _ _ => ⟨"heap-buffer-overflow", "state"⟩) "/out/fuzz-target"
    "corpus/crash-1" ⟨"triggered bug index 1\ntriggered bug index 2"⟩
    (fun S => decide ((1 : ℤ) ∈ S)) [1, 2] ([[1]], [[1], [2]])
    (by decide) (by decide) (by decide) (by decide) (by decide) {1}

/-- C2: any two distinct trigger sets in a `process_crash` result are
incomparable: neither is a superset of the other. -/
theorem claim_C2 (stackClassifier : String → String → CrashResult)
    (app_binary crash_testcase_path : String) (baseline : ExecResult)
    (is_crash : Finset ℤ → Bool) (st : MState)
    (hres : process_crash stackClassifier app_binary crash_testcase_path baseline
      is_crash = some st) :
    ∀ c1 ∈ st.1, ∀ c2 ∈ st.1, c1.toFinset ≠ c2.toFinset →
      ¬ c1.toFinset ⊆ c2.toFinset ∧ ¬ c2.toFinset ⊆ c1.toFinset := by
  rcases process_crash_cases stackClassifier app_binary crash_testcase_path
    baseline is_crash st hres with hst | ⟨triggers, hnd, -, hst⟩
  · subst hst
    intro c1 hc1
    exact absurd hc1 (List.not_mem_nil c1)
  · subst hst
    obtain ⟨hsound, -, -⟩ := minimizeCrashes_inv is_crash triggers hnd
    intro c1 hc1 c2 hc2 hne
    exact ⟨minimal_incomp is_crash triggers.toFinset (hsound c1 hc1)
        (hsound c2 hc2) hne,
      minimal_incomp is_crash triggers.toFinset (hsound c2 hc2)
        (hsound c1 hc1) (Ne.symm hne)⟩

/-- Witness for C2: two disjoint minimal sets `{1}` and `{2}`. -/
theorem claim_C2_witness :
    ¬ ([1] : List ℤ).toFinset ⊆ ([2] : List ℤ).toFinset ∧
      ¬ ([2] : List ℤ).toFinset ⊆ ([1] : List ℤ).toFinset :=
  claim_C2 (fun _ _ => ⟨"heap-buffer-overflow", "state"⟩) "/out/fuzz-target"
    "corpus/crash-2" ⟨"triggered bug index 1\ntriggered bug index 2"⟩
    (fun S => decide ((1 : ℤ) ∈ S ∨ (2 : ℤ) ∈ S)) ([[1], [2]], [[1], [2]])
    (by decide) [1] (by decide) [2] (by decide) (by simp)

/-- C3: a candidate that is a superset of an already confirmed crash set
is never passed to the trial executor — the step skips it, leaving even
the execution trace unchanged; globally, no executed candidate strictly
contains a recorded crash set; and in the concrete `{1, 2}` scenario where
`{1}` crashes, `[1, 2]` is never executed while `[1]` is recorded. -/
theorem claim_C3 :
    (∀ (is_crash : Finset ℤ → Bool) (st : MState) (cand : List ℤ),
      (∃ c ∈ st.1, ∀ x ∈ c, x ∈ cand) → crashStep is_crash st cand = st)
    ∧ (∀ (is_crash : Finset ℤ → Bool) (tl : List ℤ), tl.Nodup →
      ∀ e ∈ (minimizeCrashes is_crash tl).2,
        ∀ c ∈ (minimizeCrashes is_crash tl).1,
        c.toFinset ⊆ e.toFinset → c.toFinset = e.toFinset)
    ∧ ([1, 2] : List ℤ) ∉ (minimizeCrashes (fun S => decide ((1 : ℤ) ∈ S)) [1, 2]).2
    ∧ ([1] : List ℤ) ∈ (minimizeCrashes (fun S => decide ((1 : ℤ) ∈ S)) [1, 2]).1 := by
  refine ⟨?_, ?_, by decide, by decide⟩
  · rintro o st cand ⟨c, hc, hsub⟩
    exact crashStep_skip o st cand ⟨c, hc, fun y hy =>
      List.mem_toFinset.mpr (hsub y (List.mem_toFinset.mp hy))⟩
  · intro o tl hnd e he c hc hsub
    obtain ⟨hsound, -, hexec⟩ := minimizeCrashes_inv o tl hnd
    exact hexec e he c.toFinset (hsound c hc) hsub

/-- Witness for C3's two conditional parts at concrete states. -/
theorem claim_C3_witness :
    crashStep (fun _ => true) ([[1]], []) [1, 2] = ([[1]], [])
    ∧ ([1] : List ℤ).toFinset = ([1] : List ℤ).toFinset :=
  ⟨claim_C3.1 (fun _ => true) ([[1]], []) [1, 2] (by decide),
   claim_C3.2.1 (fun S => decide ((1 : ℤ) ∈ S)) [1, 2] (by decide) [1]
     (by decide) [1] (by decide) (Finset.Subset.refl _)⟩

/-- C4: when the baseline run is not classified as a crash, or the parsed
triggered set is empty, `process_crash` returns no crash records and its
execution trace is empty — no trial beyond the baseline run happens. -/
theorem claim_C4 (stackClassifier : String → String → CrashResult)
    (app_binary crash_testcase_path : String) (baseline : ExecResult)
    (is_crash : Finset ℤ → Bool)
    (h : isCrash stackClassifier baseline app_binary = false ∨
      parseFixReverterLog baseline.output = some []) :
    process_crash stackClassifier app_binary crash_testcase_path baseline is_crash
      = some ([], []) := by
  unfold process_crash
  by_cases h1 : ("oom-".toList.isPrefixOf (basename crash_testcase_path).toList
      || "timeout-".toList.isPrefixOf (basename crash_testcase_path).toList) = true
  · rw [if_pos h1]
  · rw [if_neg h1]
    rcases h with hc | hp
    · rw [hc]
      rw [if_pos (show (!false) = true from rfl)]
    · cases hc : isCrash stackClassifier baseline app_binary with
      | false =>
        rw [if_pos (show (!false) = true from rfl)]
      | true =>
        rw [if_neg (show ¬((!true) = true) by simp), hp]
        show (if ([] : List ℤ).length = 0 then some (([], []) : MState)
          else some (minimizeCrashes is_crash [])) = some ([], [])
        rw [if_pos (show ([] : List ℤ).length = 0 from rfl)]

/-- Witness for C4: a baseline whose stack parse yields no crash state. -/
theorem claim_C4_witness :
    process_crash (fun _ _ => ⟨"", ""⟩) "/out/fuzz-target" "corpus/crash-3"
      ⟨"boom"⟩ (fun _ => true) = some ([], []) :=
  claim_C4 (fun _ _ => ⟨"", ""⟩) "/out/fuzz-target" "corpus/crash-3" ⟨"boom"⟩
    (fun _ => true) (Or.inl (by decide))

end fixreverter_run_crashes

namespace fixreverter_run_crashes

/-- Insertion via `insertKV` keeps the dict's keys duplicate-free. -/
theorem insertKV_keys_nodup (m : List (String × Crash)) (k : String) (v : Crash)
    (hnd : (m.map Prod.fst).Nodup) :
    ((insertKV m k v).map Prod.fst).Nodup := by
  unfold insertKV
  split
  · have hkeys : (m.map (fun p => if p.1 = k then (k, v) else p)).map Prod.fst
        = m.map Prod.fst := by
      rw [List.map_map]
      refine List.map_congr_left ?_
      intro p _
      by_cases hp : p.1 = k
      · simp [hp]
      · simp [hp]
    rw [hkeys]
    exact hnd
  · rename_i hany
    rw [List.map_append]
    rw [List.nodup_append]
    refine ⟨hnd, by simp, ?_⟩
    intro a ha hb
    simp only [List.map_cons, List.map_nil, List.mem_singleton] at hb
    subst hb
    obtain ⟨p, hp, hpk⟩ := List.mem_map.mp ha
    exact hany (List.any_eq_true.mpr ⟨p, hp, by simp [hpk]⟩)

/-- Replacing the value at key `k` turns every key-`k` entry into `(k, v)`. -/
theorem filter_map_replace (k : String) (v : Crash) :
    ∀ m : List (String × Crash),
    ((m.map (fun p => if p.1 = k then (k, v) else p)).filter
        (fun p => decide (p.1 = k)))
      = (m.filter (fun p => decide (p.1 = k))).map (fun _ => (k, v)) := by
  intro m
  induction m with
  | nil => rfl
  | cons p m' ih =>
    by_cases hp : p.1 = k
    · simp [List.filter_cons, hp, ih]
    · simp [List.filter_cons, hp, ih]

/-- With duplicate-free keys, the key-`k` entries of a dict containing `k`
form exactly the singleton of its entry. -/
theorem filter_eq_singleton (k : String) :
    ∀ m : List (String × Crash), (m.map Prod.fst).Nodup →
    ∀ p ∈ m, p.1 = k → m.filter (fun q => decide (q.1 = k)) = [p] := by
  intro m
  induction m with
  | nil => intro _ p hp; exact absurd hp (List.not_mem_nil p)
  | cons q m' ih =>
    intro hnd p hp hpk
    simp only [List.map_cons, List.nodup_cons] at hnd
    obtain ⟨hq, hnd'⟩ := hnd
    rcases List.mem_cons.mp hp with rfl | hp
    · rw [List.filter_cons, if_pos (by simp [hpk])]
      have hrest : m'.filter (fun q' => decide (q'.1 = k)) = [] := by
        rw [List.filter_eq_nil_iff]
        intro a ha
        simp only [decide_eq_true_eq]
        intro hak
        exact hq (by rw [hpk, ← hak]; exact List.mem_map_of_mem Prod.fst ha)
      rw [hrest]
    · have hqk : q.1 ≠ k := by
        intro hqk
        refine hq ?_
        rw [hqk, ← hpk]
        exact List.mem_map_of_mem Prod.fst hp
      rw [List.filter_cons, if_neg (by simp [hqk])]
      exact ih hnd' p hp hpk

/-- Inserting at key `k` leaves exactly `(k, v)` under key `k`. -/
theorem filter_insertKV_self (m : List (String × Crash)) (k : String) (v : Crash)
    (hnd : (m.map Prod.fst).Nodup) :
    (insertKV m k v).filter (fun p => decide (p.1 = k)) = [(k, v)] := by
  unfold insertKV
  split
  · rename_i hany
    obtain ⟨p, hp, hpk⟩ := List.any_eq_true.mp hany
    rw [filter_map_replace]
    rw [filter_eq_singleton k m hnd p hp (by simpa using hpk)]
    rfl
  · rename_i hany
    rw [List.filter_append]
    have h1 : m.filter (fun p => decide (p.1 = k)) = [] := by
      rw [List.filter_eq_nil_iff]
      intro p hp hpk
      exact hany (List.any_eq_true.mpr ⟨p, hp, hpk⟩)
    rw [h1]
    simp

/-- Inserting at key `k` does not change the entries under other keys. -/
theorem filter_map_replace_ne (k : String) (v : Crash) (k' : String)
    (hne : k ≠ k') : ∀ m : List (String × Crash),
    ((m.map (fun p => if p.1 = k then (k, v) else p)).filter
        (fun p => decide (p.1 = k')))
      = m.filter (fun p => decide (p.1 = k')) := by
  intro m
  induction m with
  | nil => rfl
  | cons p m' ih =>
    by_cases hp : p.1 = k
    · have hpk' : ¬ p.1 = k' := by rw [hp]; exact hne
      simp [List.filter_cons, hp, hpk', hne, ih]
    · by_cases hpk' : p.1 = k'
      · simp [List.filter_cons, hp, hpk', ih, Ne.symm hne]
      · simp [List.filter_cons, hp, hpk', ih]

/-- Inserting at key `k` does not change the entries under other keys. -/
theorem filter_insertKV_ne (m : List (String × Crash)) (k : String) (v : Crash)
    (k' : String) (hne : k ≠ k') :
    (insertKV m k v).filter (fun p => decide (p.1 = k'))
      = m.filter (fun p => decide (p.1 = k')) := by
  unfold insertKV
  split
  · exact filter_map_replace_ne k v k' hne m
  · rw [List.filter_append]
    have h1 : ([(k, v)] : List (String × Crash)).filter
        (fun p => decide (p.1 = k')) = [] := by
      simp [hne]
    rw [h1, List.append_nil]

/-- Folding dict insertions: under any key, the final dict holds exactly
the last value inserted at that key (or the initial dict's entries when
the key was never inserted). -/
theorem foldl_insertKV_filter (k : String) :
    ∀ (pairs : List (String × Crash)) (m : List (String × Crash)),
    (m.map Prod.fst).Nodup →
    ((pairs.foldl (fun acc p => insertKV acc p.1 p.2) m).filter
        (fun p => decide (p.1 = k)))
      = (match (pairs.filter (fun p => decide (p.1 = k))).getLast? with
        | some q => [(k, q.2)]
        | none => m.filter (fun p => decide (p.1 = k))) := by
  intro pairs
  induction pairs with
  | nil => intro m _; rfl
  | cons p rest ih =>
    intro m hnd
    rw [List.foldl_cons]
    rw [ih (insertKV m p.1 p.2) (insertKV_keys_nodup m p.1 p.2 hnd)]
    cases hrl : (rest.filter (fun q => decide (q.1 = k))).getLast? with
    | some q =>
      have hcons : ((p :: rest).filter (fun q' => decide (q'.1 = k))).getLast?
          = some q := by
        rw [List.filter_cons]
        split
        · rw [List.getLast?_cons, hrl]
          rfl
        · exact hrl
      rw [hcons]
    | none =>
      have hrest_nil : rest.filter (fun q => decide (q.1 = k)) = [] := by
        cases hf : rest.filter (fun q => decide (q.1 = k)) with
        | nil => rfl
        | cons a l => rw [hf] at hrl; simp [List.getLast?_cons] at hrl
      by_cases hpk : p.1 = k
      · have hcons : ((p :: rest).filter (fun q' => decide (q'.1 = k))).getLast?
            = some p := by
          rw [List.filter_cons, if_pos (by simpa using hpk), hrest_nil]
          rfl
        rw [hcons]
        show (insertKV m p.1 p.2).filter (fun q => decide (q.1 = k)) = [(k, p.2)]
        rw [hpk]
        exact filter_insertKV_self m k p.2 hnd
      · have hcons : ((p :: rest).filter (fun q' => decide (q'.1 = k))).getLast?
            = none := by
          rw [List.filter_cons, if_neg (by simpa using hpk), hrest_nil]
          rfl
        rw [hcons]
        show (insertKV m p.1 p.2).filter (fun q => decide (q.1 = k))
          = m.filter (fun q => decide (q.1 = k))
        exact filter_insertKV_ne m p.1 p.2 k hpk

/-- Unrolling: `do_crashes_run` is the fold of its flat insertion sequence. -/
theorem do_crashes_run_eq_foldl :
    ∀ (testcases : List (String × List (List ℤ))) (m : List (String × Crash)),
    testcases.foldl
      (fun crashes tc =>
        tc.2.foldl
          (fun crashes crashset =>
            insertKV crashes (get_crash_key ⟨tc.1, crashset⟩) ⟨tc.1, crashset⟩)
          crashes)
      m
    = (crashInsertions testcases).foldl (fun acc p => insertKV acc p.1 p.2) m := by
  intro testcases
  induction testcases with
  | nil => intro m; rfl
  | cons tc rest ih =>
    intro m
    rw [List.foldl_cons]
    show rest.foldl _ (tc.2.foldl _ m) = _
    rw [ih]
    simp only [crashInsertions]
    rw [List.foldl_append, List.foldl_map]

/-- C9: in the corpus walk, for every key the returned mapping holds
exactly one `Crash` record — the one from the last-processed
(testcase, trigger set) pair whose key it is (last-write-wins overwrite);
concretely, two different testcases with the same trigger set leave only
the later testcase's record under their shared key. -/
theorem claim_C9 :
    (∀ (testcases : List (String × List (List ℤ))) (k : String),
      ((do_crashes_run testcases).filter (fun p => decide (p.1 = k))).map Prod.snd
        = (((crashInsertions testcases).filter
            (fun p => decide (p.1 = k))).map Prod.snd).getLast?.toList)
    ∧ do_crashes_run [("a", [[1, 2]]), ("b", [[2, 1]])]
        = [("1+2", ⟨"b", [2, 1]⟩)] := by
  constructor
  · intro testcases k
    unfold do_crashes_run
    rw [do_crashes_run_eq_foldl testcases []]
    rw [foldl_insertKV_filter k (crashInsertions testcases) [] (by simp)]
    rw [List.getLast?_map]
    cases hl : ((crashInsertions testcases).filter
        (fun p => decide (p.1 = k))).getLast? with
    | none => rfl
    | some q => rfl
  · decide

end fixreverter_run_crashes
